import Mathlib

/-!
Verification development for the POOS backtest engine
(`src/poos_backtest/engine.py` and `src/poos_backtest/indicators.py`).

Numeric model: Python floats are modelled as exact rationals (`ℚ`).
Where pandas produces non-finite floats (`NaN` from missing data,
`±inf` from division by zero) we use the inductive type `FV` below, so
that the `np.isnan` checks and float comparisons of the engine keep
their source semantics.  Raw OHLCV bars are assumed finite (the spec's
input contract: pre-fetched, pre-aligned, clean daily bars), so bar
fields are plain `ℚ`; only derived indicator columns can be non-finite.
-/

set_option maxRecDepth 10000

/- Batteries marks the `Rat` field operations `@[irreducible]`, which
blocks elaborator-level evaluation (`decide`) of concrete runs; the
kernel unfolds them regardless.  Restore the default status so closed
statements about concrete runs can be settled by `decide`. -/
set_option allowUnsafeReducibility true in
attribute [semireducible] Rat.add Rat.mul Rat.inv Rat.sub Rat.div

namespace PoosBacktest

/-- A float value as produced by the pandas indicator pipeline:
either a finite rational, positive/negative infinity, or NaN. -/
inductive FV where
  | nan : FV
  | inf : FV
  | ninf : FV
  | fin : ℚ → FV
deriving DecidableEq, Repr

namespace FV

/-- `np.isnan` on an indicator cell. -/
def isnan : FV → Bool
  | nan => true
  | _ => false

/-- IEEE `<` on float values: any comparison with NaN is false. -/
def lt : FV → FV → Bool
  | nan, _ => false
  | _, nan => false
  | ninf, ninf => false
  | ninf, _ => true
  | _, ninf => false
  | inf, _ => false
  | _, inf => true
  | fin a, fin b => decide (a < b)

/-- IEEE `≤` on float values: any comparison with NaN is false. -/
def le : FV → FV → Bool
  | nan, _ => false
  | _, nan => false
  | ninf, _ => true
  | _, ninf => false
  | _, inf => true
  | inf, _ => false
  | fin a, fin b => decide (a ≤ b)

/-- IEEE `>` on float values (pandas `Series.__gt__` elementwise):
comparisons involving NaN are false. -/
def gt (a b : FV) : Bool := lt b a

end FV

/-- One daily OHLCV bar (a row of the input DataFrames).  Fields are
finite rationals per the input contract. -/
structure Bar where
  open_ : ℚ
  high : ℚ
  low : ℚ
  close : ℚ
  volume : ℚ
deriving DecidableEq, Repr

/-- Default bar used to totalize out-of-range index access (the Python
code would raise on misaligned input, which the spec declares a caller
contract violation; no claim depends on these default values). -/
def defaultBar : Bar := ⟨0, 0, 0, 0, 0⟩

/-! ## Indicator library (`indicators.py`) -/

/-- Tail recursion of `Series.ewm(span, adjust=False).mean()` over a
NaN-free series: `out[i] = a*x[i] + (1-a)*out[i-1]`. -/
def emaGo (a : ℚ) : ℚ → List ℚ → List ℚ
  | _, [] => []
  | prev, x :: xs =>
    let y := a * x + (1 - a) * prev
    y :: emaGo a y xs

/-- `ema(series, span)`: `series.ewm(span=span, adjust=False).mean()`
over a NaN-free series, smoothing factor `2/(span+1)`, `out[0] = in[0]`. -/
def ema (s : List ℚ) (span : ℕ) : List ℚ :=
  match s with
  | [] => []
  | x :: xs => x :: emaGo (2 / ((span : ℚ) + 1)) x xs

/-- `ewm(adjust=False, ignore_na=False).mean()` over a series that may
contain NaN cells (as produced by `safe_div`).  Pandas keeps
position-based weights across gaps; this is implemented with a
numerator/denominator pair that decays by `(1-a)` every row and is
bumped by `a*x` (resp. `a`) on valid rows; the first valid row starts
the pair at `(x, 1)`.  On a NaN-free series this reduces to the plain
`ema` recursion.  `den = 0` marks "no valid value seen yet" (NaN out). -/
def emaFVGo (a : ℚ) : ℚ → ℚ → List FV → List FV
  | _, _, [] => []
  | num, den, x :: xs =>
    match x with
    | FV.fin q =>
      if den = 0 then FV.fin q :: emaFVGo a q 1 xs
      else
        let n := (1 - a) * num + a * q
        let d := (1 - a) * den + a
        FV.fin (n / d) :: emaFVGo a n d xs
    | _ =>
      if den = 0 then FV.nan :: emaFVGo a num den xs
      else
        let n := (1 - a) * num
        let d := (1 - a) * den
        FV.fin (n / d) :: emaFVGo a n d xs

/-- `ema` over a possibly-NaN series (used for the sector
relative-strength ratio column). -/
def emaFV (s : List FV) (span : ℕ) : List FV :=
  emaFVGo (2 / ((span : ℚ) + 1)) 0 0 s

/-- True range per bar: `max(|high-low|, |high-prevClose|, |low-prevClose|)`;
on the first bar the previous close is missing and pandas'
`max(axis=1)` skips the NaN columns, leaving `|high-low|`. -/
def trueRange (bars : List Bar) : List ℚ :=
  List.zipWith
    (fun b pc =>
      match pc with
      | none => |b.high - b.low|
      | some c => max |b.high - b.low| (max |b.high - c| |b.low - c|))
    bars (none :: bars.map (fun b => some b.close))

/-- `Series.rolling(p).mean()`: mean of the last `p` values, undefined
(`none`, i.e. NaN) until `p` values are available. -/
def rollingMean (xs : List ℚ) (p : ℕ) : List (Option ℚ) :=
  (List.range xs.length).map (fun i =>
    if p ≤ i + 1 then some (((xs.take (i + 1)).drop (i + 1 - p)).sum / (p : ℚ))
    else none)

/-- `atr(df, period)`: rolling mean of the true range. -/
def atr (bars : List Bar) (period : ℕ) : List (Option ℚ) :=
  rollingMean (trueRange bars) period

/-- One cell of `Series.pct_change(periods)`: current value `x` against
the shifted value.  The shifted cell is NaN for the first `periods`
rows.  Float division semantics: a zero denominator yields `+inf` for a
positive numerator, `-inf` for a negative one, and NaN for `0/0`. -/
def pctCell (x : ℚ) : FV → FV
  | FV.fin y =>
    if y = 0 then
      if x > 0 then FV.inf else if x < 0 then FV.ninf else FV.nan
    else FV.fin ((x - y) / y)
  | _ => FV.nan

/-- `percent_change(series, periods)`: `series.pct_change(periods=periods)`,
i.e. elementwise `(value[i] - value[i-periods]) / value[i-periods]`
against the series shifted by `periods` (NaN-padded at the front),
with float division-by-zero semantics. -/
def percent_change (s : List ℚ) (periods : ℕ) : List FV :=
  List.zipWith pctCell s (List.replicate periods FV.nan ++ s.map FV.fin)

/-- `safe_div(a, b)`: elementwise `a / b` with `±inf` results replaced
by NaN.  Over finite inputs, any zero denominator therefore maps to NaN
(`x/0 = ±inf → NaN`, `0/0 = NaN`). -/
def safe_div (a b : List ℚ) : List FV :=
  List.zipWith (fun x y => if y = 0 then FV.nan else FV.fin (x / y)) a b

/-! ## Data model (`engine.py` dataclasses and records) -/

/-- `Position` dataclass: an open trade.  Dates are modelled as the
calendar index values passed in `dates`. -/
structure Position where
  ticker : String
  entry_date : ℕ
  entry_price : ℚ
  shares : ℤ
  stop_price : ℚ
  breakeven_set : Bool
deriving DecidableEq, Repr

/-- `Trade` dataclass: an immutable closed-position record. -/
structure Trade where
  ticker : String
  entry_date : ℕ
  entry_price : ℚ
  exit_date : ℕ
  exit_price : ℚ
  shares : ℤ
  pnl : ℚ
  pnl_pct : ℚ
  reason : String
deriving DecidableEq, Repr

/-- Default trade used only to totalize list indexing in closed
concrete statements. -/
def defaultTrade : Trade := ⟨"", 0, 0, 0, 0, 0, 0, 0, ""⟩

/-- One row of the returned `equity_df`. -/
structure EquityRow where
  date : ℕ
  cash : ℚ
  market_value : ℚ
  equity : ℚ
  positions : ℕ
  risk_on : Bool
deriving DecidableEq, Repr

/-- Default equity row used only to totalize list indexing in closed
concrete statements. -/
def defaultRow : EquityRow := ⟨0, 0, 0, 0, 0, false⟩

/-- The keyword configuration bundle of `run_backtest`. -/
structure Config where
  risk_per_trade : ℚ
  max_position_pct : ℚ
  slippage_bps : ℚ
  commission_per_share : ℚ
  commission_min : ℚ
  min_dollar_volume : ℚ
  price_max : ℚ
  perf_3m_min : ℚ
deriving DecidableEq, Repr

/-- A stock DataFrame after the indicator-preparation loop of
`run_backtest` (raw bars plus the derived columns). -/
structure StockPrep where
  bars : List Bar
  ema20 : List ℚ
  ema21 : List ℚ
  atr14 : List (Option ℚ)
  perf_3m : List FV
  dollar_vol : List ℚ
deriving DecidableEq, Repr

/-- Empty prepared table, used to totalize ticker lookup (a missing
ticker would be a `KeyError` in the source, a caller contract
violation). -/
def emptyStockPrep : StockPrep := ⟨[], [], [], [], [], []⟩

/-- A sector DataFrame after preparation: its bars and the derived
`sec_strong` column. -/
structure SecPrep where
  bars : List Bar
  sec_strong : List Bool
deriving DecidableEq, Repr

/-- `d["ema20"] = ema(close,20)`, `ema21`, `atr14 = atr(d,14)`,
`perf_3m = percent_change(close,63)`, `dollar_vol = close*volume`.
`ema` of a NaN-free close series never produces NaN, so those two
columns are plain rationals. -/
def prepareStock (bars : List Bar) : StockPrep :=
  let closes := bars.map Bar.close
  { bars := bars
    ema20 := ema closes 20
    ema21 := ema closes 21
    atr14 := atr bars 14
    perf_3m := percent_change closes 63
    dollar_vol := List.zipWith (fun c v => c * v) closes (bars.map Bar.volume) }

/-- Sector preparation: `rs = safe_div(sec close, spy close)`,
`rs_ema20 = ema(rs, 20)`, `sec_strong = rs_ema20 > rs_ema20.shift(1)`
(the pandas `>` is false whenever either cell is NaN). -/
def prepareSector (spyCloses : List ℚ) (bars : List Bar) : SecPrep :=
  let rs := safe_div (bars.map Bar.close) spyCloses
  let rs_ema20 := emaFV rs 20
  { bars := bars
    sec_strong := List.zipWith FV.gt rs_ema20 (FV.nan :: rs_ema20) }

/-- SPY preparation: `risk_on = ema(close,5) > ema(close,10)`. -/
def prepareSpy (spy : List Bar) : List Bool :=
  let closes := spy.map Bar.close
  List.zipWith (fun a b => decide (a > b)) (ema closes 5) (ema closes 10)

/-- All run-scoped read-only tables of one backtest: prepared series
and configuration.  Association lists keep the (insertion) iteration
order of the Python dicts. -/
structure Ctx where
  riskOn : List Bool
  prepared : List (String × StockPrep)
  sectors : List (String × SecPrep)
  ticker_to_sector : List (String × String)
  cfg : Config

/-- Build the run context from the raw `run_backtest` arguments
(the preparation phase, lines 64-85 of `engine.py`). -/
def mkCtx (spy : List Bar) (sector_dfs : List (String × List Bar))
    (stock_dfs : List (String × List Bar))
    (ticker_to_sector : List (String × String)) (cfg : Config) : Ctx :=
  let spyCloses := spy.map Bar.close
  { riskOn := prepareSpy spy
    prepared := stock_dfs.map (fun p => (p.1, prepareStock p.2))
    sectors := sector_dfs.map (fun p => (p.1, prepareSector spyCloses p.2))
    ticker_to_sector := ticker_to_sector
    cfg := cfg }

/-- `prepared[t]` (totalized). -/
def stockAt (ctx : Ctx) (t : String) : StockPrep :=
  (List.lookup t ctx.prepared).getD emptyStockPrep

/-- `float(prepared[t].iloc[i]["close"])`. -/
def closeAt (ctx : Ctx) (t : String) (i : ℕ) : ℚ :=
  ((stockAt ctx t).bars.getD i defaultBar).close

/-- `float(prepared[t].iloc[i]["high"])`. -/
def highAt (ctx : Ctx) (t : String) (i : ℕ) : ℚ :=
  ((stockAt ctx t).bars.getD i defaultBar).high

/-- `float(prepared[t].iloc[i]["low"])`. -/
def lowAt (ctx : Ctx) (t : String) (i : ℕ) : ℚ :=
  ((stockAt ctx t).bars.getD i defaultBar).low

/-- `prepared[t].iloc[i]["perf_3m"]`. -/
def perfAt (ctx : Ctx) (t : String) (i : ℕ) : FV :=
  (stockAt ctx t).perf_3m.getD i FV.nan

/-- `bool(spy.loc[i, "risk_on"])`. -/
def riskOnAt (ctx : Ctx) (i : ℕ) : Bool :=
  ctx.riskOn.getD i false

/-- Mutable engine state threaded through the daily loop. -/
structure EngineState where
  cash : ℚ
  positions : List (String × Position)
  trades : List Trade
  last_trade_unlocked : Bool
  equity_rows : List EquityRow
deriving Repr

/-! ## Execution cost model -/

/-- `_slip(price, bps, is_buy)`. -/
def _slip (price : ℚ) (bps : ℚ) (is_buy : Bool) : ℚ :=
  let mult := if is_buy then 1 + bps / 10000 else 1 - bps / 10000
  price * mult

/-- `_commission(shares, per_share, min_fee)`. -/
def _commission (shares : ℤ) (per_share : ℚ) (min_fee : ℚ) : ℚ :=
  max min_fee ((shares : ℚ) * per_share)

/-- The `Trade` record appended on a position close (the identical
code appears at the STOP-close site, lines 128-146, and the EOD
liquidation site, lines 288-308, of `engine.py`): `gross` is
`(exit-entry)*shares`, `fees` is the (exit-leg) commission, and
`pnl = gross - fees`. -/
def mkCloseTrade (cfg : Config) (t : String) (pos : Position) (day : ℕ)
    (exit_px : ℚ) (reason : String) : Trade :=
  let gross := (exit_px - pos.entry_price) * (pos.shares : ℚ)
  let fees := _commission pos.shares cfg.commission_per_share cfg.commission_min
  { ticker := t
    entry_date := pos.entry_date
    entry_price := pos.entry_price
    exit_date := day
    exit_price := exit_px
    shares := pos.shares
    pnl := gross - fees
    pnl_pct := (exit_px - pos.entry_price) / pos.entry_price
    reason := reason }

/-! ## Daily loop (`run_backtest` body) -/

/-- `cash += pos.shares * exit_px - fees` at a close. -/
def closeCashDelta (cfg : Config) (pos : Position) (exit_px : ℚ) : ℚ :=
  (pos.shares : ℚ) * exit_px -
    _commission pos.shares cfg.commission_per_share cfg.commission_min

/-- Mark-to-market: `Σ shares * close[i]` over open positions. -/
def mktValue (ctx : Ctx) (positions : List (String × Position)) (i : ℕ) : ℚ :=
  (positions.map (fun p => (p.2.shares : ℚ) * closeAt ctx p.1 i)).sum

/-- Whether a position arms its breakeven today: breakeven not yet set
and the day's high at or above `entry_price * 1.01`.  This is the
event that sets `last_trade_unlocked = True`. -/
def armB (ctx : Ctx) (i : ℕ) (p : String × Position) : Bool :=
  !p.2.breakeven_set && decide (highAt ctx p.1 i ≥ p.2.entry_price * (101 / 100))

/-- The per-position update of the risk-management pass: move the stop
to breakeven when the arming condition holds. -/
def stepPos (ctx : Ctx) (i : ℕ) (p : String × Position) : String × Position :=
  if armB ctx i p then
    (p.1, { p.2 with stop_price := p.2.entry_price, breakeven_set := true })
  else p

/-- The stop test against the (possibly just armed) stop price:
`low <= stop_price <= high` flags the position for closure at
`_slip(stop_price, bps, is_buy=False)`. -/
def closeEntry (ctx : Ctx) (i : ℕ) (p : String × Position) :
    Option (String × ℚ × String) :=
  let q := stepPos ctx i p
  if decide (lowAt ctx q.1 i ≤ q.2.stop_price) &&
      decide (q.2.stop_price ≤ highAt ctx q.1 i) then
    some (q.1, _slip q.2.stop_price ctx.cfg.slippage_bps false, "STOP")
  else none

/-- Output of the risk-management pass (lines 110-125). -/
structure ManageOut where
  positions : List (String × Position)
  to_close : List (String × ℚ × String)
  unlocked : Bool

/-- The risk-management pass over the open positions.  The source
iterates the dict once, mutating each position in place, appending to
`to_close`, and or-accumulating the unlock flag; each iteration only
touches its own position, so the pass is the map / filterMap / any
decomposition below, in dict iteration order. -/
def managePass (ctx : Ctx) (i : ℕ) (positions : List (String × Position))
    (unlocked : Bool) : ManageOut :=
  { positions := positions.map (stepPos ctx i)
    to_close := positions.filterMap (closeEntry ctx i)
    unlocked := unlocked || positions.any (armB ctx i) }

/-- `positions.pop(t)` on an association list (keys are unique in any
state the engine produces). -/
def removeKey (positions : List (String × Position)) (t : String) :
    List (String × Position) :=
  positions.filter (fun p => !(p.1 == t))

/-- One flagged closure (the body of the loop at lines 127-146): pop
the ticker, credit cash net of the exit commission, append a `Trade`.
(The pop always succeeds on engine-produced states; a missing key is
skipped to keep the function total.) -/
def closeStep (cfg : Config) (day : ℕ)
    (acc : ℚ × List (String × Position) × List Trade) (e : String × ℚ × String) :
    ℚ × List (String × Position) × List Trade :=
  match List.lookup e.1 acc.2.1 with
  | none => acc
  | some pos =>
    (acc.1 + closeCashDelta cfg pos e.2.1,
     removeKey acc.2.1 e.1,
     acc.2.2 ++ [mkCloseTrade cfg e.1 pos day e.2.1 e.2.2])

/-- Apply all flagged closures in order (lines 127-146). -/
def applyCloses (cfg : Config) (day : ℕ)
    (acc : ℚ × List (String × Position) × List Trade)
    (to_close : List (String × ℚ × String)) :
    ℚ × List (String × Position) × List Trade :=
  to_close.foldl (closeStep cfg day) acc

/-- The position-independent part of the candidate screening for one
ticker (lines 172-223): the filter cascade in source order,
short-circuiting on the first failing test.  Each `false` branch below
corresponds to one `continue` (diagnostic reason) of the source; since
the diagnostics feed nothing back into the state, the cascade is a
single boolean.  The `np.isnan` checks on `ema20`/`ema21` are omitted:
`ema` of a NaN-free close series is never NaN. -/
def screenFilters (ctx : Ctx) (i : ℕ) (t : String) (sp : StockPrep) : Bool :=
  let row := sp.bars.getD i defaultBar
  if (sp.atr14.getD i none).isNone || (sp.perf_3m.getD i FV.nan).isnan then false
  else if decide (row.close > ctx.cfg.price_max) then false
  else if decide (sp.dollar_vol.getD i 0 < ctx.cfg.min_dollar_volume) then false
  else if FV.lt (sp.perf_3m.getD i FV.nan) (FV.fin ctx.cfg.perf_3m_min) then false
  else
    match List.lookup t ctx.ticker_to_sector with
    | none => false
    | some sec =>
      if sec = "" then false
      else
        match List.lookup sec ctx.sectors with
        | none => false
        | some sd =>
          if !(sd.sec_strong.getD i false) then false
          else if i = 0 then false
          else
            let sec_close := (sd.bars.getD i defaultBar).close
            let prev_sec_close := (sd.bars.getD (i - 1) defaultBar).close
            if decide (sec_close ≤ 0) || decide (prev_sec_close ≤ 0) then false
            else
              let rs := row.close / sec_close
              let prev_rs := (sp.bars.getD (i - 1) defaultBar).close / prev_sec_close
              if !decide (rs > prev_rs) then false
              else
                let limit_px := sp.ema20.getD i 0
                if decide (row.open_ < sp.ema21.getD i 0) then false
                else if !(decide (row.low ≤ limit_px) && decide (limit_px ≤ row.high)) then false
                else true

/-- The candidate screening for one ticker (lines 167-225): skip
tickers with a currently open position (`t in positions`, checked
against the post-closure position set), then run the filter cascade;
a passing ticker becomes a candidate carrying its EMA20 limit price. -/
def screenTicker (ctx : Ctx) (positions : List (String × Position))
    (i : ℕ) (t : String) (sp : StockPrep) : Option (String × ℚ) :=
  if (List.lookup t positions).isSome then none
  else if screenFilters ctx i t sp then some (t, sp.ema20.getD i 0)
  else none

/-- `candidates.sort(key=perf_3m, reverse=True)` followed by
`candidates[0]`: Python's sort is stable, so this is the first
candidate (in dict iteration order) attaining the maximal `perf_3m`.
Returns `none` on an empty candidate list. -/
def pickTop (key : String × ℚ → FV) : List (String × ℚ) → Option (String × ℚ)
  | [] => none
  | c :: cs => some (cs.foldl (fun best x => if FV.lt (key best) (key x) then x else best) c)

/-- Position sizing (lines 237-249): stop at `limit - atr14` with the
90%-of-limit fallback for non-positive stops, risk per share floored
at 0.01, share count as the min of the risk-based and equity-pct-based
floors, clamped at 0.  Returns `(stop_px, risk_per_share, shares)`. -/
def sizePosition (equity limit_px a risk_per_trade max_position_pct : ℚ) :
    ℚ × ℚ × ℤ :=
  let stop_px0 := limit_px - a
  let stop_px := if stop_px0 ≤ 0 then limit_px * (9 / 10) else stop_px0
  let risk_per_share := max (1 / 100) (limit_px - stop_px)
  let shares_by_risk := Rat.floor (equity * risk_per_trade / risk_per_share)
  let shares_by_size := Rat.floor (equity * max_position_pct / limit_px)
  (stop_px, risk_per_share, max 0 (min shares_by_risk shares_by_size))

/-- The entry step (lines 163-271), to be run only when `risk_on` and
the gate is unlocked: screen all prepared tickers in dict order, pick
the strongest candidate by 3-month performance, size it, and if the
sized cost fits in cash, debit cash, open the position (breakeven
unarmed) and lock the gate.  Returns the new
`(cash, positions, last_trade_unlocked)`.  (Diagnostics counters are
omitted: they never feed back into the simulation state.) -/
def entryStep (ctx : Ctx) (i day : ℕ) (cash : ℚ)
    (positions : List (String × Position)) (equity : ℚ) :
    ℚ × List (String × Position) × Bool :=
  let candidates := ctx.prepared.filterMap (fun p => screenTicker ctx positions i p.1 p.2)
  match pickTop (fun c => perfAt ctx c.1 i) candidates with
  | none => (cash, positions, true)
  | some c =>
    let t := c.1
    let limit_px := c.2
    let a := ((stockAt ctx t).atr14.getD i none).getD 0
    let s := sizePosition equity limit_px a ctx.cfg.risk_per_trade ctx.cfg.max_position_pct
    let stop_px := s.1
    let shares := s.2.2
    if shares ≤ 0 then (cash, positions, true)
    else
      let entry_px := _slip limit_px ctx.cfg.slippage_bps true
      let fees := _commission shares ctx.cfg.commission_per_share ctx.cfg.commission_min
      let cost := (shares : ℚ) * entry_px + fees
      if cost > cash then (cash, positions, true)
      else
        (cash - cost,
         positions ++ [(t, ⟨t, day, entry_px, shares, stop_px, false⟩)],
         false)

/-- The risk-management pass of day `i` applied to a state. -/
def dayManage (ctx : Ctx) (st : EngineState) (i : ℕ) : ManageOut :=
  managePass ctx i st.positions st.last_trade_unlocked

/-- `(cash, positions, trades)` of day `(i, day)` after the closures
have been applied. -/
def dayPostClose (ctx : Ctx) (st : EngineState) (i day : ℕ) :
    ℚ × List (String × Position) × List Trade :=
  applyCloses ctx.cfg day (st.cash, (dayManage ctx st i).positions, st.trades)
    (dayManage ctx st i).to_close

/-- One iteration of the daily loop (lines 99-282).  Note the fidelity
point behind claim C2: the equity row records `mkt_value` and `equity`
as computed after the closures (lines 148-153) but `cash` and the
position count as they stand after the entry step. -/
def processDay (ctx : Ctx) (st : EngineState) (iday : ℕ × ℕ) : EngineState :=
  let i := iday.1
  let day := iday.2
  let risk_on := riskOnAt ctx i
  let m := dayManage ctx st i
  let pc := dayPostClose ctx st i day
  let cash1 := pc.1
  let positions1 := pc.2.1
  let trades1 := pc.2.2
  let mkt := mktValue ctx positions1 i
  let equity := cash1 + mkt
  let e :=
    if risk_on && m.unlocked then entryStep ctx i day cash1 positions1 equity
    else (cash1, positions1, m.unlocked)
  let row : EquityRow :=
    { date := day, cash := e.1, market_value := mkt, equity := equity,
      positions := e.2.1.length, risk_on := risk_on }
  { cash := e.1
    positions := e.2.1
    trades := trades1
    last_trade_unlocked := e.2.2
    equity_rows := st.equity_rows ++ [row] }

/-- The daily loop over `enumerate(dates)`. -/
def runDays (ctx : Ctx) (st : EngineState) (idays : List (ℕ × ℕ)) : EngineState :=
  idays.foldl (processDay ctx) st

/-- EOD liquidation (lines 284-316): if positions remain after the
last day, close each at the slippage-adjusted final close with reason
`EOD_LIQUIDATION`, empty the position set, and rewrite the final
equity row to all-cash. -/
def eodLiquidate (ctx : Ctx) (dates : List ℕ) (st : EngineState) : EngineState :=
  if st.positions.isEmpty then st
  else
    let last_i := dates.length - 1
    let last_day := dates.getD last_i 0
    let exitPx := fun (t : String) => _slip (closeAt ctx t last_i) ctx.cfg.slippage_bps false
    let cash :=
      st.cash + (st.positions.map (fun p => closeCashDelta ctx.cfg p.2 (exitPx p.1))).sum
    let trades :=
      st.trades ++
        st.positions.map (fun p => mkCloseTrade ctx.cfg p.1 p.2 last_day (exitPx p.1) "EOD_LIQUIDATION")
    let rows :=
      match st.equity_rows with
      | [] => st.equity_rows
      | _ =>
        st.equity_rows.dropLast ++
          [{ st.equity_rows.getLastD defaultRow with
              cash := cash, market_value := 0, equity := cash, positions := 0 }]
    { cash := cash, positions := [], trades := trades,
      last_trade_unlocked := st.last_trade_unlocked, equity_rows := rows }

/-- The initial engine state: `cash = equity = start_cash`, no
positions, no trades, gate unlocked, no rows. -/
def initState (start_cash : ℚ) : EngineState :=
  ⟨start_cash, [], [], true, []⟩

/-- The full run as an `EngineState`: daily loop then EOD liquidation. -/
def runFull (start_cash : ℚ) (dates : List ℕ) (spy : List Bar)
    (sector_dfs : List (String × List Bar)) (stock_dfs : List (String × List Bar))
    (ticker_to_sector : List (String × String)) (cfg : Config) : EngineState :=
  let ctx := mkCtx spy sector_dfs stock_dfs ticker_to_sector cfg
  let idays := (List.range dates.length).zip dates
  eodLiquidate ctx dates (runDays ctx (initState start_cash) idays)

/-- `run_backtest`: returns the equity curve and the trade ledger. -/
def run_backtest (start_cash : ℚ) (dates : List ℕ) (spy : List Bar)
    (sector_dfs : List (String × List Bar)) (stock_dfs : List (String × List Bar))
    (ticker_to_sector : List (String × String)) (cfg : Config) :
    List EquityRow × List Trade :=
  let st := runFull start_cash dates spy sector_dfs stock_dfs ticker_to_sector cfg
  (st.equity_rows, st.trades)

/-! ## Auxiliary definitions for the claims -/

/-- Modelled from the spec's words for claim C5 (refinement target):
stop = limit − ATR14 with fallback to 0.9 × limit when non-positive;
risk_per_share = max(0.01, limit − stop); shares =
max(0, min(floor(equity × risk_per_trade / risk_per_share),
floor(equity × max_position_pct / limit_price))). -/
def sizePositionSpec (equity limit_px a risk_per_trade max_position_pct : ℚ) :
    ℚ × ℚ × ℤ :=
  let stop := if limit_px - a ≤ 0 then (9 / 10) * limit_px else limit_px - a
  let rps := max (1 / 100) (limit_px - stop)
  (stop, rps,
    max 0 (min (Rat.floor (equity * risk_per_trade / rps))
      (Rat.floor (equity * max_position_pct / limit_px))))

/-- The P&L identity every engine-produced trade actually satisfies:
`pnl` is gross minus the commission of the exit leg only, `pnl_pct`
is the relative price change. -/
def tradeOk (cfg : Config) (tr : Trade) : Prop :=
  tr.pnl = (tr.exit_price - tr.entry_price) * (tr.shares : ℚ) -
      _commission tr.shares cfg.commission_per_share cfg.commission_min ∧
  tr.pnl_pct = (tr.exit_price - tr.entry_price) / tr.entry_price

/-- Some open position of `st` arms its breakeven on day `i` — the
only event that sets `last_trade_unlocked` back to `True`. -/
def armEvent (ctx : Ctx) (st : EngineState) (i : ℕ) : Bool :=
  st.positions.any (armB ctx i)

/-! ## Concrete runs used by counterexamples and witnesses

Entries require `perf_3m` (a 63-bar percent change) to be defined, so
any run that trades needs at least 64 calendar days. -/

/-- A flat OHLCV bar at price `p`. -/
def flatBar (p : ℚ) : Bar := ⟨p, p, p, p, 1000000⟩

/-- Run B stock bars: identical bars `o=50, h=51, l=49, c=50` on all 65
days, so `ema20 = ema21 = 50` and `atr14 = 2` exactly. -/
def stockBarsB : List Bar := List.replicate 65 ⟨50, 51, 49, 50, 1000000⟩

/-- Run B SPY bars: close `100 + i`, an uptrend making every day from
day 1 on risk-on. -/
def spyBarsB : List Bar := (List.range 65).map (fun i => flatBar (100 + (i : ℚ)))

/-- Run B sector bars: close `100 + 2i` through day 62 (outpacing SPY,
so the sector stays strong), dipping to 223 on day 63 (so the constant
stock closes outperform the sector that day) and jumping to 230 on day
64 (so no re-entry happens after the stop-out). -/
def secBarsB : List Bar :=
  (List.range 65).map (fun i =>
    flatBar (if i ≤ 62 then 100 + 2 * (i : ℚ) else if i = 63 then 223 else 230))

/-- Run B configuration: the numbers of the spec's sizing scenario. -/
def cfgB : Config :=
  { risk_per_trade := 2 / 100
    max_position_pct := 1 / 10
    slippage_bps := 2
    commission_per_share := 5 / 1000
    commission_min := 1
    min_dollar_volume := 0
    price_max := 100
    perf_3m_min := 0 }

/-- Run B context. -/
def ctxB : Ctx := mkCtx spyBarsB [("S", secBarsB)] [("A", stockBarsB)] [("A", "S")] cfgB

/-- Run B calendar and its enumeration. -/
def datesB : List ℕ := List.range 65

/-- Run B, day-by-day state after `n` days, starting from 100,000 cash.
The entry fires on day 63 (EMA20 limit 50, ATR14 2, equity 100,000);
on day 64 the position arms breakeven and stops out at the entry
price. -/
def runB (n : ℕ) : EngineState :=
  runDays ctxB (initState 100000) (((List.range datesB.length).zip datesB).take n)

/-- Run B final output. -/
def outB : List EquityRow × List Trade :=
  run_backtest 100000 datesB spyBarsB [("S", secBarsB)] [("A", stockBarsB)] [("A", "S")] cfgB

/-- Run A stock bars: flat at 100 through day 62, a qualifying pullback
entry bar on day 63, and on day 64 a bar that first arms breakeven
(high 102 ≥ entry×1.01), then stops out at the entry price, and then
qualifies again for entry (same-day re-entry after a same-day close). -/
def stockBarsA : List Bar :=
  List.replicate 63 (flatBar 100) ++
    [⟨101, 203 / 2, 100, 101, 1000000⟩, ⟨102, 102, 99, 102, 1000000⟩]

/-- Run A sector bars: close `100 + 2i`. -/
def secBarsA : List Bar := (List.range 65).map (fun i => flatBar (100 + 2 * (i : ℚ)))

/-- Run A configuration: frictionless fills to keep numbers small. -/
def cfgA : Config :=
  { risk_per_trade := 2 / 100
    max_position_pct := 1 / 10
    slippage_bps := 0
    commission_per_share := 0
    commission_min := 0
    min_dollar_volume := 0
    price_max := 1000
    perf_3m_min := 0 }

/-- Run A final output. -/
def outA : List EquityRow × List Trade :=
  run_backtest 100000 (List.range 65) spyBarsB [("S", secBarsA)] [("A", stockBarsA)] [("A", "S")] cfgA

/-- A one-stock, one-bar context for witnesses of the universally
quantified gate/stop theorems: the single bar has high 102 and low 99. -/
def ctxW : Ctx := mkCtx [flatBar 100] [] [("A", [⟨100, 102, 99, 100, 0⟩])] [] cfgA

/-- A position of entry price 100 with breakeven unarmed and stop 95,
held in `ctxW`; the bar arms it (102 ≥ 101) and then stops it out at
the entry price (99 ≤ 100 ≤ 102). -/
def posW : Position := ⟨"A", 0, 100, 10, 95, false⟩

/-- A state holding `posW` with the gate locked. -/
def stW : EngineState := ⟨0, [("A", posW)], [], false, []⟩

/-- A locked state with no open positions (the permanently dead state
of claim C9). -/
def stLockedW : EngineState := ⟨1000, [], [], false, []⟩

/-- A breakeven-armed position whose stop cannot be hit in `ctxW`
(stop 5 is below the bar's low), used to witness that screening only
excludes currently open tickers. -/
def posArmedW : Position := ⟨"A", 0, 200, 10, 5, true⟩

/-- A state holding `posArmedW` with the gate locked. -/
def stArmedW : EngineState := ⟨0, [("A", posArmedW)], [], false, []⟩

/-! ## Claim theorems -/

/-- Claim C8: buys fill at `price * (1 + bps/10000)` and sells at
`price * (1 - bps/10000)`; for a positive quoted price and nonnegative
slippage the buy fill is at or above the quote and the sell fill at or
below it, with equality in either direction exactly when
`slippage_bps = 0` — slippage is always adverse to the trader. -/
theorem slip_direction_c8 (price bps : ℚ) :
    _slip price bps true = price * (1 + bps / 10000) ∧
    _slip price bps false = price * (1 - bps / 10000) ∧
    (0 < price → 0 ≤ bps →
      price ≤ _slip price bps true ∧ _slip price bps false ≤ price ∧
      (_slip price bps true = price ↔ bps = 0) ∧
      (_slip price bps false = price ↔ bps = 0)) := by
  have hbuy : _slip price bps true = price * (1 + bps / 10000) := rfl
  have hsell : _slip price bps false = price * (1 - bps / 10000) := rfl
  refine ⟨hbuy, hsell, fun hp hb => ⟨?_, ?_, ?_, ?_⟩⟩
  · rw [hbuy]; nlinarith
  · rw [hsell]; nlinarith
  · rw [hbuy]
    constructor
    · intro h; nlinarith
    · intro h; rw [h]; ring
  · rw [hsell]
    constructor
    · intro h; nlinarith
    · intro h; rw [h]; ring

/-- Witness for C8 at price 100, slippage 2 bps. -/
theorem slip_direction_c8_witness :
    (100 : ℚ) ≤ _slip 100 2 true ∧ _slip 100 2 false ≤ (100 : ℚ) := by
  have h := (slip_direction_c8 100 2).2.2 (by norm_num) (by norm_num)
  exact ⟨h.1, h.2.1⟩

/-- Claim C5: position sizing computes the spec's formulas (stop at
`limit - ATR14` with the 0.9-limit fallback, risk per share floored at
0.01, share count as the clamped min of the risk-based and
position-size-based floors); in particular on the concrete scenario —
equity 100,000, EMA20 limit 50.00, ATR14 2.00, risk_per_trade 0.02,
max_position_pct 0.10, slippage 2 bps, commission 0.005/share min 1.00
— the sizing yields stop 48.00, risk 2.00/share, 200 shares, entry
fill 50.01, commission 1.00, and run B's entry day debits exactly
10,003.00 from the 100,000 cash, leaving the open position at those
values. -/
theorem sizing_scenario_c5 :
    (∀ equity limit_px a rpt mpp : ℚ,
      sizePosition equity limit_px a rpt mpp = sizePositionSpec equity limit_px a rpt mpp) ∧
    sizePosition 100000 50 2 (2 / 100) (1 / 10) = (48, 2, 200) ∧
    _slip 50 2 true = 5001 / 100 ∧
    _commission 200 (5 / 1000) 1 = 1 ∧
    (200 : ℚ) * _slip 50 2 true + _commission 200 (5 / 1000) 1 = 10003 ∧
    (runB 64).positions = [("A", ⟨"A", 63, 5001 / 100, 200, 48, false⟩)] ∧
    (runB 64).cash = 100000 - 10003 := by
  refine ⟨fun e l a r m => ?_, by decide, by decide, by decide, by decide, ?_⟩
  · unfold sizePosition sizePositionSpec
    by_cases h : l - a ≤ 0 <;> simp [h, mul_comm]
  · exact ⟨by decide, by decide⟩

/-- Claim C2 fails on the code (code bug): on run B's entry day (index
63) the recorded equity row keeps the pre-entry equity (100,000) and
market value (0) while its cash (89,997 after the 10,003 debit) and
position count (1) are post-entry, so `equity ≠ cash + market_value`
and the recorded market value excludes the open position's mark
(200 shares × close 50 = 10,000). -/
theorem equity_row_stale_c2 :
    ((outB.1).getD 63 defaultRow).equity = 100000 ∧
    ((outB.1).getD 63 defaultRow).cash = 89997 ∧
    ((outB.1).getD 63 defaultRow).market_value = 0 ∧
    ((outB.1).getD 63 defaultRow).positions = 1 ∧
    ((outB.1).getD 63 defaultRow).equity ≠
      ((outB.1).getD 63 defaultRow).cash + ((outB.1).getD 63 defaultRow).market_value := by
  decide

/-- Claim C1 counterexample: run B's single trade (a STOP close of 200
shares, commission 1.00 per leg) has `pnl = gross - 1.00`
(exit-leg commission only), not `gross - 2.00` (both legs) as the
claim states. -/
theorem trade_pnl_c1_cex :
    outB.2.length = 1 ∧
    (outB.2.getD 0 defaultTrade).pnl ≠
      ((outB.2.getD 0 defaultTrade).exit_price - (outB.2.getD 0 defaultTrade).entry_price) *
          ((outB.2.getD 0 defaultTrade).shares : ℚ) -
        (_commission (outB.2.getD 0 defaultTrade).shares cfgB.commission_per_share
            cfgB.commission_min +
          _commission (outB.2.getD 0 defaultTrade).shares cfgB.commission_per_share
            cfgB.commission_min) := by
  decide

/-- Claim C3 counterexample: in run A the position entered on day 63
is stop-closed on day 64, and a new position in the same ticker "A" is
opened later that same day 64 (then EOD-liquidated), refuting the
no-same-day-re-entry claim. -/
theorem same_day_reentry_c3_cex :
    outA.2.length = 2 ∧
    (outA.2.getD 0 defaultTrade).ticker = "A" ∧
    (outA.2.getD 0 defaultTrade).reason = "STOP" ∧
    (outA.2.getD 0 defaultTrade).entry_date = 63 ∧
    (outA.2.getD 0 defaultTrade).exit_date = 64 ∧
    (outA.2.getD 1 defaultTrade).ticker = "A" ∧
    (outA.2.getD 1 defaultTrade).entry_date = 64 := by
  decide

/-- Claim C7 counterexample: `percent_change([0, 5], 1)` at index 1
has a zero denominator, but the value is `+inf`, not NaN; `np.isnan`
does not flag it, so the engine does not treat it as unavailable. -/
theorem percent_change_c7_cex :
    percent_change [0, 5] 1 = [FV.nan, FV.inf] ∧ FV.isnan FV.inf = false := by
  decide

/-- Claim C7 as amended: `percent_change(series, periods)` is NaN
(unavailable) at every index `i < periods`; at `i ≥ periods` it equals
`(value[i] - value[i-periods]) / value[i-periods]` whenever the
denominator is nonzero, while a zero denominator yields `+inf` / `-inf`
for a nonzero numerator (not NaN, hence not disqualifying) and NaN only
for `0/0`. -/
theorem percent_change_c7 (s : List ℚ) (periods i : ℕ) (h1 : i < s.length) :
    (i < periods → (percent_change s periods).getD i FV.nan = FV.nan) ∧
    (periods ≤ i →
      (percent_change s periods).getD i FV.nan =
        (if s.getD (i - periods) 0 = 0 then
          (if 0 < s.getD i 0 then FV.inf else if s.getD i 0 < 0 then FV.ninf else FV.nan)
         else FV.fin ((s.getD i 0 - s.getD (i - periods) 0) / s.getD (i - periods) 0))) := by
  have hs : s[i]? = some s[i] := List.getElem?_eq_getElem h1
  have hgd : s.getD i 0 = s[i] := by simp [List.getD_eq_getElem?_getD, hs]
  constructor
  · intro hip
    have hsh : (List.replicate periods FV.nan ++ s.map FV.fin)[i]? = some FV.nan := by
      rw [List.getElem?_append_left (by simpa using hip)]
      simp [hip]
    simp [percent_change, List.getD_eq_getElem?_getD, List.getElem?_zipWith, hs, hsh, pctCell]
  · intro hpi
    have hislt : i - periods < s.length := lt_of_le_of_lt (Nat.sub_le _ _) h1
    have hgd2 : s.getD (i - periods) 0 = s[i - periods] := by
      simp [List.getD_eq_getElem?_getD, List.getElem?_eq_getElem hislt]
    have hsh : (List.replicate periods FV.nan ++ s.map FV.fin)[i]? =
        some (FV.fin s[i - periods]) := by
      rw [List.getElem?_append_right (by simpa using hpi)]
      simp [List.getElem?_eq_getElem hislt]
    rw [hgd, hgd2]
    simp only [percent_change, List.getD_eq_getElem?_getD, List.getElem?_zipWith, hs, hsh]
    simp [pctCell, gt_iff_lt]

/-- Witness for C7 at `series = [1, 3]`, `periods = 1`, `i = 1`
(denominator 1, value `(3-1)/1 = 2`). -/
theorem percent_change_c7_witness :
    (percent_change [1, 3] 1).getD 1 FV.nan = FV.fin 2 :=
  ((percent_change_c7 [1, 3] 1 1 (by decide)).2 (by decide)).trans (by decide)

/-- Each close-site `Trade` record satisfies the exit-leg-only P&L
identity by construction. -/
theorem mkCloseTrade_tradeOk (cfg : Config) (t : String) (pos : Position)
    (day : ℕ) (px : ℚ) (r : String) : tradeOk cfg (mkCloseTrade cfg t pos day px r) :=
  ⟨rfl, rfl⟩

/-- `closeStep` preserves the P&L identity over the trade ledger. -/
theorem closeStep_tradeOk (cfg : Config) (day : ℕ)
    (acc : ℚ × List (String × Position) × List Trade) (e : String × ℚ × String)
    (h : ∀ tr ∈ acc.2.2, tradeOk cfg tr) :
    ∀ tr ∈ (closeStep cfg day acc e).2.2, tradeOk cfg tr := by
  unfold closeStep
  cases hl : List.lookup e.1 acc.2.1 with
  | none => exact h
  | some pos =>
    intro tr htr
    rcases List.mem_append.mp htr with h1 | h1
    · exact h tr h1
    · rcases List.mem_singleton.mp h1 with rfl
      exact mkCloseTrade_tradeOk ..

/-- `applyCloses` preserves the P&L identity over the trade ledger. -/
theorem applyCloses_tradeOk (cfg : Config) (day : ℕ)
    (tc : List (String × ℚ × String)) :
    ∀ acc, (∀ tr ∈ acc.2.2, tradeOk cfg tr) →
      ∀ tr ∈ (applyCloses cfg day acc tc).2.2, tradeOk cfg tr := by
  induction tc with
  | nil => exact fun acc h => h
  | cons e rest ih =>
    intro acc h
    exact ih (closeStep cfg day acc e) (closeStep_tradeOk cfg day acc e h)

/-- `processDay` preserves the P&L identity over the trade ledger. -/
theorem processDay_tradeOk (ctx : Ctx) (st : EngineState) (iday : ℕ × ℕ)
    (h : ∀ tr ∈ st.trades, tradeOk ctx.cfg tr) :
    ∀ tr ∈ (processDay ctx st iday).trades, tradeOk ctx.cfg tr := by
  intro tr htr
  exact applyCloses_tradeOk ctx.cfg iday.2 (dayManage ctx st iday.1).to_close
    (st.cash, (dayManage ctx st iday.1).positions, st.trades) h tr htr

/-- `runDays` preserves the P&L identity over the trade ledger. -/
theorem runDays_tradeOk (ctx : Ctx) (idays : List (ℕ × ℕ)) :
    ∀ st, (∀ tr ∈ st.trades, tradeOk ctx.cfg tr) →
      ∀ tr ∈ (runDays ctx st idays).trades, tradeOk ctx.cfg tr := by
  induction idays with
  | nil => exact fun st h => h
  | cons d rest ih =>
    intro st h
    exact ih (processDay ctx st d) (processDay_tradeOk ctx st d h)

/-- `eodLiquidate` preserves the P&L identity over the trade ledger. -/
theorem eodLiquidate_tradeOk (ctx : Ctx) (dates : List ℕ) (st : EngineState)
    (h : ∀ tr ∈ st.trades, tradeOk ctx.cfg tr) :
    ∀ tr ∈ (eodLiquidate ctx dates st).trades, tradeOk ctx.cfg tr := by
  unfold eodLiquidate
  by_cases he : st.positions.isEmpty
  · simpa [he] using h
  · simp only [he, Bool.false_eq_true, if_false]
    intro tr htr
    rcases List.mem_append.mp htr with h1 | h1
    · exact h tr h1
    · rcases List.mem_map.mp h1 with ⟨p, _, rfl⟩
      exact mkCloseTrade_tradeOk ..

/-- Claim C1 as amended: for every `Trade` produced by `run_backtest`
(STOP or EOD_LIQUIDATION), `pnl` equals
`(exit_price - entry_price) * shares` minus the commission of the
*exit leg only* — the entry-leg commission is debited from cash at
entry but never enters `pnl` — and
`pnl_pct = (exit_price - entry_price) / entry_price`. -/
theorem trade_pnl_c1 (start_cash : ℚ) (dates : List ℕ) (spy : List Bar)
    (sector_dfs : List (String × List Bar)) (stock_dfs : List (String × List Bar))
    (t2s : List (String × String)) (cfg : Config) :
    ∀ tr ∈ (run_backtest start_cash dates spy sector_dfs stock_dfs t2s cfg).2,
      tr.pnl = (tr.exit_price - tr.entry_price) * (tr.shares : ℚ) -
          _commission tr.shares cfg.commission_per_share cfg.commission_min ∧
      tr.pnl_pct = (tr.exit_price - tr.entry_price) / tr.entry_price := by
  intro tr htr
  have h : tradeOk cfg tr := by
    have h0 : ∀ t ∈ (initState start_cash).trades, tradeOk cfg t := by
      intro t ht; cases ht
    exact eodLiquidate_tradeOk (mkCtx spy sector_dfs stock_dfs t2s cfg) dates _
      (runDays_tradeOk (mkCtx spy sector_dfs stock_dfs t2s cfg) _ _ h0) tr htr
  exact h

/-- Witness for the amended C1 at run B's STOP trade. -/
theorem trade_pnl_c1_witness :
    (outB.2.getD 0 defaultTrade).pnl =
      ((outB.2.getD 0 defaultTrade).exit_price - (outB.2.getD 0 defaultTrade).entry_price) *
          ((outB.2.getD 0 defaultTrade).shares : ℚ) -
        _commission (outB.2.getD 0 defaultTrade).shares cfgB.commission_per_share
          cfgB.commission_min :=
  (trade_pnl_c1 100000 datesB spyBarsB [("S", secBarsB)] [("A", stockBarsB)]
    [("A", "S")] cfgB (outB.2.getD 0 defaultTrade) (by decide)).1

/-! ## Structural lemmas about the daily loop -/

/-- `stepPos` never changes the ticker key. -/
theorem stepPos_fst (ctx : Ctx) (i : ℕ) (p : String × Position) :
    (stepPos ctx i p).1 = p.1 := by
  unfold stepPos
  split <;> rfl

/-- A position that does not arm today is untouched by the
risk-management pass. -/
theorem stepPos_of_not_arm (ctx : Ctx) (i : ℕ) (p : String × Position)
    (h : armB ctx i p = false) : stepPos ctx i p = p := by
  simp [stepPos, h]

/-- `removeKey` only drops entries. -/
theorem removeKey_sublist (ps : List (String × Position)) (t : String) :
    (removeKey ps t).Sublist ps :=
  List.filter_sublist ps

/-- After `removeKey t`, looking up `t` fails. -/
theorem lookup_removeKey_self (ps : List (String × Position)) (t : String) :
    List.lookup t (removeKey ps t) = none := by
  induction ps with
  | nil => rfl
  | cons p rest ih =>
    obtain ⟨k, v⟩ := p
    by_cases hk : k = t
    · simp [removeKey, hk] at ih ⊢
      exact ih
    · simp only [removeKey, List.filter] at ih ⊢
      have : (!(k == t)) = true := by simp [hk]
      rw [this]
      simp only [List.lookup]
      have : (t == k) = false := by simp [Ne.symm hk]
      rw [this]
      exact ih

/-- `removeKey` of a different key does not affect a lookup. -/
theorem lookup_removeKey_ne (ps : List (String × Position)) {t k : String}
    (h : t ≠ k) : List.lookup t (removeKey ps k) = List.lookup t ps := by
  induction ps with
  | nil => rfl
  | cons p rest ih =>
    obtain ⟨k', v⟩ := p
    by_cases hk : k' = k
    · subst hk
      simp only [removeKey, List.filter, beq_self_eq_true, Bool.not_true]
      rw [show List.lookup t ((k', v) :: rest) = List.lookup t rest by
        simp [List.lookup, beq_eq_false_iff_ne.mpr h]]
      exact ih
    · simp only [removeKey, List.filter] at ih ⊢
      have hb : (!(k' == k)) = true := by simp [hk]
      rw [hb]
      by_cases ht : t = k'
      · subst ht
        simp [List.lookup]
      · simp only [List.lookup, beq_eq_false_iff_ne.mpr ht]
        exact ih

/-- A failed lookup stays failed after any `removeKey`. -/
theorem lookup_none_removeKey (ps : List (String × Position)) (k t : String)
    (h : List.lookup t ps = none) : List.lookup t (removeKey ps k) = none := by
  by_cases htk : t = k
  · subst htk; exact lookup_removeKey_self ps t
  · rw [lookup_removeKey_ne ps htk]; exact h

/-- `closeStep` only shrinks the position list. -/
theorem closeStep_positions_sublist (cfg : Config) (day : ℕ)
    (acc : ℚ × List (String × Position) × List Trade) (e : String × ℚ × String) :
    (closeStep cfg day acc e).2.1.Sublist acc.2.1 := by
  unfold closeStep
  cases List.lookup e.1 acc.2.1 with
  | none => exact List.Sublist.refl _
  | some pos => exact removeKey_sublist _ _

/-- `applyCloses` only shrinks the position list. -/
theorem applyCloses_positions_sublist (cfg : Config) (day : ℕ)
    (tc : List (String × ℚ × String)) :
    ∀ acc, (applyCloses cfg day acc tc).2.1.Sublist acc.2.1 := by
  induction tc with
  | nil => exact fun acc => List.Sublist.refl _
  | cons e rest ih =>
    intro acc
    exact (ih (closeStep cfg day acc e)).trans (closeStep_positions_sublist cfg day acc e)

/-- If the gate is locked and no open position arms its breakeven
today, the gate is still locked after the day and no position was
opened (the day's position set is a sublist of the morning's). -/
theorem processDay_locked (ctx : Ctx) (st : EngineState) (iday : ℕ × ℕ)
    (h1 : st.last_trade_unlocked = false) (h2 : armEvent ctx st iday.1 = false) :
    (processDay ctx st iday).last_trade_unlocked = false ∧
    (processDay ctx st iday).positions.Sublist st.positions := by
  have hm : (dayManage ctx st iday.1).unlocked = false := by
    simp only [dayManage, managePass, h1, Bool.false_or]
    exact h2
  have hmap : st.positions.map (stepPos ctx iday.1) = st.positions := by
    have hall : ∀ p ∈ st.positions, armB ctx iday.1 p = false := by
      intro p hp
      by_contra hc
      have : st.positions.any (armB ctx iday.1) = true :=
        List.any_eq_true.mpr ⟨p, hp, by revert hc; cases armB ctx iday.1 p <;> simp⟩
      rw [armEvent] at h2
      rw [h2] at this
      cases this
    calc st.positions.map (stepPos ctx iday.1)
        = st.positions.map id := List.map_congr_left (fun p hp => stepPos_of_not_arm ctx iday.1 p (hall p hp))
      _ = st.positions := List.map_id _
  have hsub : (dayPostClose ctx st iday.1 iday.2).2.1.Sublist st.positions := by
    have := applyCloses_positions_sublist ctx.cfg iday.2 (dayManage ctx st iday.1).to_close
      (st.cash, (dayManage ctx st iday.1).positions, st.trades)
    simpa [dayPostClose, dayManage, managePass, hmap] using this
  constructor
  · simp [processDay, hm]
  · simp only [processDay, hm, Bool.and_false, Bool.false_eq_true, if_false]
    exact hsub

/-- Claim C4: once the gate is locked, it stays locked — and the
position set never grows — across any span of days on which no open
position arms its breakeven; and a day can only flip the gate from
locked to unlocked through an arm event. -/
theorem gate_monotone_c4 (ctx : Ctx) :
    (∀ idays : List (ℕ × ℕ), ∀ st : EngineState,
      st.last_trade_unlocked = false →
      (∀ k, k < idays.length →
        armEvent ctx (runDays ctx st (idays.take k)) (idays.getD k (0, 0)).1 = false) →
      (runDays ctx st idays).last_trade_unlocked = false ∧
      (runDays ctx st idays).positions.Sublist st.positions) ∧
    (∀ st : EngineState, ∀ iday : ℕ × ℕ,
      (processDay ctx st iday).last_trade_unlocked = true →
      st.last_trade_unlocked = true ∨ armEvent ctx st iday.1 = true) := by
  constructor
  · intro idays
    induction idays with
    | nil => exact fun st h1 _ => ⟨h1, List.Sublist.refl _⟩
    | cons d rest ih =>
      intro st h1 hNoArm
      have h0 : armEvent ctx st d.1 = false := by
        have := hNoArm 0 (by simp)
        simpa using this
      have hd := processDay_locked ctx st d h1 h0
      have ih' := ih (processDay ctx st d) hd.1 (fun k hk => by
        have := hNoArm (k + 1) (by simpa using Nat.succ_lt_succ hk)
        simpa [List.take_succ_cons] using this)
      exact ⟨ih'.1, ih'.2.trans hd.2⟩
  · intro st iday h
    by_cases h1 : st.last_trade_unlocked = true
    · exact Or.inl h1
    · by_cases h2 : armEvent ctx st iday.1 = true
      · exact Or.inr h2
      · have hl := processDay_locked ctx st iday
          (by revert h1; cases st.last_trade_unlocked <;> simp)
          (by revert h2; cases armEvent ctx st iday.1 <;> simp)
        rw [hl.1] at h
        cases h

/-- Witness for C4: a locked, position-free state stays locked over a
day. -/
theorem gate_monotone_c4_witness :
    (runDays ctxW stLockedW [(0, 0)]).last_trade_unlocked = false ∧
    (runDays ctxW stLockedW [(0, 0)]).positions.Sublist stLockedW.positions :=
  (gate_monotone_c4 ctxW).1 [(0, 0)] stLockedW (by decide)
    (fun k hk => by
      have hk1 : k < 1 := by simpa using hk
      have hk0 : k = 0 := by omega
      subst hk0
      decide)

/-- A day processed from a locked state with no open positions changes
nothing but the appended (flat, all-cash) equity row. -/
theorem processDay_dead (ctx : Ctx) (st : EngineState) (iday : ℕ × ℕ)
    (h1 : st.last_trade_unlocked = false) (h2 : st.positions = []) :
    (processDay ctx st iday).last_trade_unlocked = false ∧
    (processDay ctx st iday).positions = [] ∧
    (processDay ctx st iday).cash = st.cash ∧
    (processDay ctx st iday).trades = st.trades ∧
    (processDay ctx st iday).equity_rows = st.equity_rows ++
      [⟨iday.2, st.cash, 0, st.cash, 0, riskOnAt ctx iday.1⟩] := by
  refine ⟨?_, ?_, ?_, ?_, ?_⟩ <;>
    simp [processDay, dayManage, dayPostClose, managePass, applyCloses, mktValue, h1, h2]

/-- Claim C9: from a locked state with no open positions, every later
day leaves the gate locked, opens nothing, appends no trade, keeps
cash constant, and records flat all-cash equity rows; the EOD
liquidation pass is also a no-op on such a final state. -/
theorem dead_state_c9 (ctx : Ctx) (idays : List (ℕ × ℕ)) (dates : List ℕ) :
    ∀ st : EngineState, st.last_trade_unlocked = false → st.positions = [] →
      (runDays ctx st idays).last_trade_unlocked = false ∧
      (runDays ctx st idays).positions = [] ∧
      (runDays ctx st idays).cash = st.cash ∧
      (runDays ctx st idays).trades = st.trades ∧
      (∀ row ∈ (runDays ctx st idays).equity_rows,
        row ∈ st.equity_rows ∨
          (row.cash = st.cash ∧ row.equity = st.cash ∧ row.market_value = 0 ∧
            row.positions = 0)) ∧
      eodLiquidate ctx dates (runDays ctx st idays) = runDays ctx st idays := by
  induction idays with
  | nil =>
    intro st h1 h2
    refine ⟨h1, h2, rfl, rfl, fun row hr => Or.inl hr, ?_⟩
    simp [runDays, eodLiquidate, h2]
  | cons d rest ih =>
    intro st h1 h2
    have hd := processDay_dead ctx st d h1 h2
    have ih' := ih (processDay ctx st d) hd.1 hd.2.1
    refine ⟨ih'.1, ih'.2.1, ih'.2.2.1.trans hd.2.2.1, ih'.2.2.2.1.trans hd.2.2.2.1,
      ?_, ih'.2.2.2.2.2⟩
    intro row hr
    rcases ih'.2.2.2.2.1 row hr with h | h
    · rw [hd.2.2.2.2] at h
      rcases List.mem_append.mp h with h' | h'
      · exact Or.inl h'
      · rcases List.mem_singleton.mp h' with rfl
        exact Or.inr ⟨rfl, rfl, rfl, rfl⟩
    · exact Or.inr (by
        rw [hd.2.2.1] at h
        exact h)

/-- Witness for C9: the dead state keeps its cash and trades over a
day. -/
theorem dead_state_c9_witness :
    (runDays ctxW stLockedW [(0, 0)]).cash = stLockedW.cash ∧
    (runDays ctxW stLockedW [(0, 0)]).trades = stLockedW.trades :=
  ⟨(dead_state_c9 ctxW [(0, 0)] [0] stLockedW (by decide) (by decide)).2.2.1,
   (dead_state_c9 ctxW [(0, 0)] [0] stLockedW (by decide) (by decide)).2.2.2.1⟩

/-- The risk-management pass does not change the ticker keys. -/
theorem keys_map_stepPos (ctx : Ctx) (i : ℕ) (ps : List (String × Position)) :
    (ps.map (stepPos ctx i)).map Prod.fst = ps.map Prod.fst := by
  rw [List.map_map]
  exact List.map_congr_left fun p _ => stepPos_fst ctx i p

/-- With unique keys, looking up a held ticker after the
risk-management pass returns its (possibly breakeven-armed) position. -/
theorem lookup_map_stepPos (ctx : Ctx) (i : ℕ) :
    ∀ (ps : List (String × Position)) (t : String) (pos : Position),
      (ps.map Prod.fst).Nodup → (t, pos) ∈ ps →
      List.lookup t (ps.map (stepPos ctx i)) = some (stepPos ctx i (t, pos)).2 := by
  intro ps
  induction ps with
  | nil => intro t pos _ h; cases h
  | cons p rest ih =>
    intro t pos hnd hmem
    rw [List.map_cons]
    rcases List.mem_cons.mp hmem with heq | hmem'
    · subst heq
      rcases hq : stepPos ctx i (t, pos) with ⟨qk, qv⟩
      have hqk : qk = t := by
        have := stepPos_fst ctx i (t, pos)
        rw [hq] at this
        exact this
      subst hqk
      simp [List.lookup]
    · have hne : t ≠ p.1 := by
        intro hteq
        have htk : t ∈ rest.map Prod.fst := List.mem_map_of_mem Prod.fst hmem'
        rw [List.map_cons] at hnd
        exact (List.nodup_cons.mp hnd).1 (hteq ▸ htk)
      rcases hq : stepPos ctx i p with ⟨qk, qv⟩
      have hqk : qk = p.1 := by
        have := stepPos_fst ctx i p
        rw [hq] at this
        exact this
      rw [show List.lookup t ((qk, qv) :: rest.map (stepPos ctx i)) =
          List.lookup t (rest.map (stepPos ctx i)) by
        simp [List.lookup, beq_eq_false_iff_ne.mpr (hqk ▸ hne)]]
      exact ih t pos (by rw [List.map_cons] at hnd; exact (List.nodup_cons.mp hnd).2) hmem'

/-- A flagged closure carries the ticker of the position that
triggered it. -/
theorem closeEntry_fst (ctx : Ctx) (i : ℕ) (p : String × Position)
    (e : String × ℚ × String) (h : closeEntry ctx i p = some e) : e.1 = p.1 := by
  unfold closeEntry at h
  dsimp only at h
  split at h
  · cases h
    exact stepPos_fst ctx i p
  · cases h

/-- The tickers of the flagged closures form a sublist of the open
tickers (hence are distinct when the open tickers are). -/
theorem toClose_fst_sublist (ctx : Ctx) (i : ℕ) :
    ∀ ps : List (String × Position),
      ((ps.filterMap (closeEntry ctx i)).map (fun e => e.1)).Sublist
        (ps.map Prod.fst) := by
  intro ps
  induction ps with
  | nil => simp
  | cons p rest ih =>
    rw [List.filterMap_cons]
    cases hc : closeEntry ctx i p with
    | none =>
      rw [List.map_cons]
      exact ih.cons p.1
    | some e =>
      rw [List.map_cons, List.map_cons, closeEntry_fst ctx i p e hc]
      exact ih.cons₂ p.1

/-- `closeStep` keeps every existing ledger entry. -/
theorem closeStep_trades_mono (cfg : Config) (day : ℕ)
    (acc : ℚ × List (String × Position) × List Trade) (e : String × ℚ × String) :
    ∀ x ∈ acc.2.2, x ∈ (closeStep cfg day acc e).2.2 := by
  unfold closeStep
  cases List.lookup e.1 acc.2.1 with
  | none => exact fun x hx => hx
  | some pos => exact fun x hx => List.mem_append_left _ hx

/-- `applyCloses` keeps every existing ledger entry. -/
theorem applyCloses_trades_mono (cfg : Config) (day : ℕ)
    (tc : List (String × ℚ × String)) :
    ∀ acc, ∀ x ∈ acc.2.2, x ∈ (applyCloses cfg day acc tc).2.2 := by
  induction tc with
  | nil => exact fun acc x hx => hx
  | cons e rest ih =>
    intro acc x hx
    exact ih (closeStep cfg day acc e) x (closeStep_trades_mono cfg day acc e x hx)

/-- `closeStep` cannot make a lookup succeed. -/
theorem closeStep_lookup_none (cfg : Config) (day : ℕ)
    (acc : ℚ × List (String × Position) × List Trade) (e : String × ℚ × String)
    (t : String) (h : List.lookup t acc.2.1 = none) :
    List.lookup t (closeStep cfg day acc e).2.1 = none := by
  unfold closeStep
  cases List.lookup e.1 acc.2.1 with
  | none => exact h
  | some pos => exact lookup_none_removeKey acc.2.1 e.1 t h

/-- `applyCloses` cannot make a lookup succeed. -/
theorem applyCloses_lookup_none (cfg : Config) (day : ℕ)
    (tc : List (String × ℚ × String)) :
    ∀ acc t, List.lookup t acc.2.1 = none →
      List.lookup t (applyCloses cfg day acc tc).2.1 = none := by
  induction tc with
  | nil => exact fun acc t h => h
  | cons e rest ih =>
    intro acc t h
    exact ih (closeStep cfg day acc e) t (closeStep_lookup_none cfg day acc e t h)

/-- Processing the flagged closures pops each flagged ticker and
appends its `Trade`: if `(t, px, r)` is flagged, `t` currently holds
`pos`, and keys are unique, then the trade ledger gains exactly
`mkCloseTrade t pos px r` and `t` is no longer open afterwards. -/
theorem applyCloses_closes (cfg : Config) (day : ℕ) :
    ∀ (tc : List (String × ℚ × String))
      (acc : ℚ × List (String × Position) × List Trade)
      (t : String) (px : ℚ) (r : String) (pos : Position),
      (acc.2.1.map Prod.fst).Nodup →
      (tc.map (fun e => e.1)).Nodup →
      (t, px, r) ∈ tc →
      List.lookup t acc.2.1 = some pos →
      (∃ tr ∈ (applyCloses cfg day acc tc).2.2,
        tr = mkCloseTrade cfg t pos day px r) ∧
      List.lookup t (applyCloses cfg day acc tc).2.1 = none := by
  intro tc
  induction tc with
  | nil => intro acc t px r pos _ _ hmem _; cases hmem
  | cons e rest ih =>
    intro acc t px r pos hnd htc hmem hlk
    rcases List.mem_cons.mp hmem with heq | hmem'
    · subst heq
      have hstep : closeStep cfg day acc (t, px, r) =
          (acc.1 + closeCashDelta cfg pos px, removeKey acc.2.1 t,
           acc.2.2 ++ [mkCloseTrade cfg t pos day px r]) := by
        unfold closeStep
        rw [hlk]
      constructor
      · refine ⟨mkCloseTrade cfg t pos day px r,
          applyCloses_trades_mono cfg day rest _ _ ?_, rfl⟩
        rw [hstep]
        exact List.mem_append_right _ (List.mem_singleton_self _)
      · apply applyCloses_lookup_none cfg day rest
        rw [hstep]
        exact lookup_removeKey_self acc.2.1 t
    · have htc' := htc
      rw [List.map_cons] at htc'
      have hne : t ≠ e.1 := by
        intro hteq
        have htk : t ∈ rest.map (fun e => e.1) := by
          have := List.mem_map_of_mem (fun x : String × ℚ × String => x.1) hmem'
          simpa using this
        rw [hteq] at htk
        exact (List.nodup_cons.mp htc').1 htk
      have hrec := ih (closeStep cfg day acc e) t px r pos ?_ (List.nodup_cons.mp htc').2
        hmem' ?_
      · exact hrec
      · unfold closeStep
        cases List.lookup e.1 acc.2.1 with
        | none => exact hnd
        | some pos' =>
          exact ((removeKey_sublist acc.2.1 e.1).map Prod.fst).nodup hnd
      · unfold closeStep
        cases List.lookup e.1 acc.2.1 with
        | none => exact hlk
        | some pos' =>
          rw [lookup_removeKey_ne acc.2.1 hne]
          exact hlk

/-- Claim C10: for an open position with breakeven unarmed whose day
carries `high ≥ entry × 1.01` and `low ≤ entry` (entry price
nonnegative, ticker keys unique), the risk-management pass arms
breakeven and unlocks the gate, the same day's stop test fires on the
updated stop (= entry), the position leaves the open set before
screening, and a STOP `Trade` exiting that day at
`entry × (1 − slippage_bps/10000)` is appended. -/
theorem arm_then_stop_c10 (ctx : Ctx) (st : EngineState) (i day : ℕ)
    (t : String) (pos : Position)
    (hmem : (t, pos) ∈ st.positions)
    (hnd : (st.positions.map Prod.fst).Nodup)
    (hbe : pos.breakeven_set = false)
    (hhi : pos.entry_price * (101 / 100) ≤ highAt ctx t i)
    (hlo : lowAt ctx t i ≤ pos.entry_price)
    (hpe : 0 ≤ pos.entry_price) :
    (dayManage ctx st i).unlocked = true ∧
    List.lookup t (dayPostClose ctx st i day).2.1 = none ∧
    ∃ tr ∈ (processDay ctx st (i, day)).trades,
      tr.ticker = t ∧ tr.reason = "STOP" ∧ tr.exit_date = day ∧
      tr.exit_price = _slip pos.entry_price ctx.cfg.slippage_bps false ∧
      tr.entry_price = pos.entry_price ∧ tr.shares = pos.shares := by
  have harm : armB ctx i (t, pos) = true := by
    simp only [armB, hbe, Bool.not_false, Bool.true_and, ge_iff_le]
    exact decide_eq_true hhi
  have hq : stepPos ctx i (t, pos) =
      (t, { pos with stop_price := pos.entry_price, breakeven_set := true }) := by
    simp [stepPos, harm]
  have hentry_le_high : pos.entry_price ≤ highAt ctx t i := by
    nlinarith
  have hcl : closeEntry ctx i (t, pos) =
      some (t, _slip pos.entry_price ctx.cfg.slippage_bps false, "STOP") := by
    unfold closeEntry
    rw [hq]
    simp [hlo, hentry_le_high]
  have hto : (t, _slip pos.entry_price ctx.cfg.slippage_bps false, "STOP") ∈
      st.positions.filterMap (closeEntry ctx i) :=
    List.mem_filterMap.mpr ⟨(t, pos), hmem, hcl⟩
  have hndm : ((st.positions.map (stepPos ctx i)).map Prod.fst).Nodup := by
    rw [keys_map_stepPos]
    exact hnd
  have hndc : ((st.positions.filterMap (closeEntry ctx i)).map (fun e => e.1)).Nodup :=
    (toClose_fst_sublist ctx i st.positions).nodup hnd
  have hlkm : List.lookup t (st.positions.map (stepPos ctx i)) =
      some { pos with stop_price := pos.entry_price, breakeven_set := true } := by
    rw [lookup_map_stepPos ctx i st.positions t pos hnd hmem, hq]
  have hclose := applyCloses_closes ctx.cfg day (st.positions.filterMap (closeEntry ctx i))
    (st.cash, st.positions.map (stepPos ctx i), st.trades) t
    (_slip pos.entry_price ctx.cfg.slippage_bps false) "STOP"
    { pos with stop_price := pos.entry_price, breakeven_set := true }
    hndm hndc hto hlkm
  refine ⟨?_, ?_, ?_⟩
  · simp only [dayManage, managePass]
    have : st.positions.any (armB ctx i) = true :=
      List.any_eq_true.mpr ⟨(t, pos), hmem, harm⟩
    rw [this, Bool.or_true]
  · exact hclose.2
  · rcases hclose.1 with ⟨tr, htr, rfl⟩
    exact ⟨_, htr, rfl, rfl, rfl, rfl, rfl, rfl⟩

/-- Witness for C10 in the one-bar context: the held position arms
(102 ≥ 101), unlocks the gate, and is popped before screening. -/
theorem arm_then_stop_c10_witness :
    (dayManage ctxW stW 0).unlocked = true ∧
    List.lookup "A" (dayPostClose ctxW stW 0 0).2.1 = none :=
  ⟨(arm_then_stop_c10 ctxW stW 0 0 "A" posW (by decide) (by decide) (by decide)
      (by decide) (by decide) (by decide)).1,
   (arm_then_stop_c10 ctxW stW 0 0 "A" posW (by decide) (by decide) (by decide)
      (by decide) (by decide) (by decide)).2.1⟩

/-- A screened candidate carries the screened ticker, and that ticker
has no currently open position. -/
theorem screenTicker_some (ctx : Ctx) (ps : List (String × Position)) (i : ℕ)
    (t : String) (sp : StockPrep) (c : String × ℚ)
    (h : screenTicker ctx ps i t sp = some c) :
    c.1 = t ∧ List.lookup t ps = none := by
  unfold screenTicker at h
  by_cases h1 : (List.lookup t ps).isSome
  · rw [if_pos h1] at h
    cases h
  · rw [if_neg h1] at h
    have hnone : List.lookup t ps = none := by
      revert h1
      cases List.lookup t ps <;> simp
    by_cases h2 : screenFilters ctx i t sp
    · rw [if_pos h2] at h
      cases h
      exact ⟨rfl, hnone⟩
    · rw [if_neg h2] at h
      cases h

/-- The selected candidate is one of the screened candidates. -/
theorem pickTop_mem (key : String × ℚ → FV) :
    ∀ (xs : List (String × ℚ)) (c : String × ℚ), pickTop key xs = some c → c ∈ xs := by
  have hfold : ∀ (cs : List (String × ℚ)) (b : String × ℚ),
      cs.foldl (fun best x => if FV.lt (key best) (key x) then x else best) b ∈ b :: cs := by
    intro cs
    induction cs with
    | nil => intro b; exact List.mem_singleton_self b
    | cons x rest ih =>
      intro b
      rcases List.mem_cons.mp (ih (if FV.lt (key b) (key x) then x else b)) with h | h
      · rw [List.foldl_cons, h]
        by_cases hc : FV.lt (key b) (key x)
        · rw [if_pos hc]
          exact List.mem_cons_of_mem b (List.mem_cons_self x rest)
        · rw [if_neg hc]
          exact List.mem_cons_self b _
      · rw [List.foldl_cons]
        exact List.mem_cons_of_mem b (List.mem_cons_of_mem x h)
  intro xs c h
  cases xs with
  | nil => cases h
  | cons c0 cs =>
    cases h
    exact hfold cs c0

/-- Shape of the entry step: either nothing is opened (gate stays
unlocked, cash and positions unchanged), or exactly one position is
appended — entered today, for a ticker with no open position at
screening time — cash is debited its cost, and the gate locks. -/
theorem entryStep_spec (ctx : Ctx) (i day : ℕ) (cash : ℚ)
    (positions : List (String × Position)) (equity : ℚ) :
    entryStep ctx i day cash positions equity = (cash, positions, true) ∨
    ∃ t pos, pos.entry_date = day ∧ pos.breakeven_set = false ∧
      List.lookup t positions = none ∧
      entryStep ctx i day cash positions equity =
        (cash - ((pos.shares : ℚ) * pos.entry_price +
            _commission pos.shares ctx.cfg.commission_per_share ctx.cfg.commission_min),
         positions ++ [(t, pos)], false) := by
  unfold entryStep
  dsimp only
  cases hpick : pickTop (fun c => perfAt ctx c.1 i)
      (List.filterMap (fun p => screenTicker ctx positions i p.1 p.2) ctx.prepared) with
  | none => exact Or.inl rfl
  | some c =>
    dsimp only
    have hlk : List.lookup c.1 positions = none := by
      rcases List.mem_filterMap.mp (pickTop_mem _ _ c hpick) with ⟨p, _, hsc⟩
      have hs := screenTicker_some ctx positions i p.1 p.2 c hsc
      rw [← hs.1] at hs
      exact hs.2
    split
    · exact Or.inl rfl
    · split
      · exact Or.inl rfl
      · exact Or.inr ⟨c.1,
          ⟨c.1, day, _slip c.2 ctx.cfg.slippage_bps true,
            (sizePosition equity c.2 (((stockAt ctx c.1).atr14.getD i none).getD 0)
              ctx.cfg.risk_per_trade ctx.cfg.max_position_pct).2.2,
            (sizePosition equity c.2 (((stockAt ctx c.1).atr14.getD i none).getD 0)
              ctx.cfg.risk_per_trade ctx.cfg.max_position_pct).1,
            false⟩, rfl, rfl, hlk, rfl⟩

/-- Claim C3 as amended: every position held at the end of a day
either survived the closure step, or was entered that day for a ticker
with no open position at screening time — a ticker closed earlier the
same day is no longer open then, so it may be (and can actually be)
re-entered the same day. -/
theorem reentry_eligibility_c3 (ctx : Ctx) (st : EngineState) (i day : ℕ)
    (t : String) (pos : Position)
    (hmem : (t, pos) ∈ (processDay ctx st (i, day)).positions) :
    (t, pos) ∈ (dayPostClose ctx st i day).2.1 ∨
    (pos.entry_date = day ∧ List.lookup t (dayPostClose ctx st i day).2.1 = none) := by
  revert hmem
  unfold processDay
  dsimp only
  split
  · rcases entryStep_spec ctx i day (dayPostClose ctx st i day).1
      (dayPostClose ctx st i day).2.1
      ((dayPostClose ctx st i day).1 +
        mktValue ctx (dayPostClose ctx st i day).2.1 i) with h | ⟨t', pos', hdate, _, hlk, h⟩
    · rw [h]
      exact fun hmem => Or.inl hmem
    · rw [h]
      intro hmem
      rcases List.mem_append.mp hmem with h1 | h1
      · exact Or.inl h1
      · rcases List.mem_singleton.mp h1 with heq
        cases heq
        exact Or.inr ⟨hdate, hlk⟩
  · exact fun hmem => Or.inl hmem

/-- Witness for the amended C3: an armed position that neither stops
out nor re-arms survives the day and is in the post-closure set. -/
theorem reentry_eligibility_c3_witness :
    ("A", posArmedW) ∈ (dayPostClose ctxW stArmedW 0 0).2.1 ∨
    (posArmedW.entry_date = 0 ∧
      List.lookup "A" (dayPostClose ctxW stArmedW 0 0).2.1 = none) :=
  reentry_eligibility_c3 ctxW stArmedW 0 0 "A" posArmedW (by decide)

/-- Folding a day onto the end of the calendar processes it last. -/
theorem runDays_concat (ctx : Ctx) (st : EngineState) (l : List (ℕ × ℕ))
    (a : ℕ × ℕ) : runDays ctx st (l ++ [a]) = processDay ctx (runDays ctx st l) a := by
  simp [runDays, List.foldl_append]

/-- Each processed day appends a row, so the row list is never empty
afterwards. -/
theorem processDay_rows_ne_nil (ctx : Ctx) (st : EngineState) (iday : ℕ × ℕ) :
    (processDay ctx st iday).equity_rows ≠ [] := by
  unfold processDay
  dsimp only
  intro hc
  rw [List.append_eq_nil] at hc
  cases hc.2

/-- If a day ends with no open positions, its recorded row is
internally consistent: zero market value, zero position count, and
equity equal to cash. -/
theorem processDay_last_row_fields (ctx : Ctx) (st : EngineState) (iday : ℕ × ℕ)
    (h : (processDay ctx st iday).positions = []) :
    ((processDay ctx st iday).equity_rows.getLastD defaultRow).market_value = 0 ∧
    ((processDay ctx st iday).equity_rows.getLastD defaultRow).positions = 0 ∧
    ((processDay ctx st iday).equity_rows.getLastD defaultRow).equity =
      ((processDay ctx st iday).equity_rows.getLastD defaultRow).cash := by
  unfold processDay at h ⊢
  dsimp only at h ⊢
  rw [List.getLastD_concat]
  by_cases hc : (riskOnAt ctx iday.1 && (dayManage ctx st iday.1).unlocked) = true
  · rw [if_pos hc] at h ⊢
    rcases entryStep_spec ctx iday.1 iday.2 (dayPostClose ctx st iday.1 iday.2).1
        (dayPostClose ctx st iday.1 iday.2).2.1
        ((dayPostClose ctx st iday.1 iday.2).1 +
          mktValue ctx (dayPostClose ctx st iday.1 iday.2).2.1 iday.1)
      with he | ⟨t', pos', _, _, _, he⟩
    · rw [he] at h ⊢
      dsimp only at h ⊢
      refine ⟨?_, ?_, ?_⟩ <;> simp [h, mktValue]
    · rw [he] at h
      dsimp only at h
      simp at h
  · rw [if_neg hc] at h ⊢
    dsimp only at h ⊢
    refine ⟨?_, ?_, ?_⟩ <;> simp [h, mktValue]

/-- Claim C6: after the final simulated day every still-open position
is force-liquidated at the final close adjusted for sell slippage with
an `EOD_LIQUIDATION` trade for its full share count; the open-position
set ends empty, and the final equity row records market value exactly
0, position count 0, and equity equal to cash. -/
theorem eod_liquidation_c6 (start_cash : ℚ) (dates : List ℕ) (spy : List Bar)
    (sector_dfs : List (String × List Bar)) (stock_dfs : List (String × List Bar))
    (t2s : List (String × String)) (cfg : Config) (h : dates ≠ []) :
    (runFull start_cash dates spy sector_dfs stock_dfs t2s cfg).positions = [] ∧
    (∀ p ∈ (runDays (mkCtx spy sector_dfs stock_dfs t2s cfg) (initState start_cash)
        ((List.range dates.length).zip dates)).positions,
      ∃ tr ∈ (runFull start_cash dates spy sector_dfs stock_dfs t2s cfg).trades,
        tr.ticker = p.1 ∧ tr.reason = "EOD_LIQUIDATION" ∧
        tr.exit_date = dates.getD (dates.length - 1) 0 ∧
        tr.exit_price = _slip (closeAt (mkCtx spy sector_dfs stock_dfs t2s cfg) p.1
          (dates.length - 1)) cfg.slippage_bps false ∧
        tr.shares = p.2.shares) ∧
    (runFull start_cash dates spy sector_dfs stock_dfs t2s cfg).equity_rows ≠ [] ∧
    ((runFull start_cash dates spy sector_dfs stock_dfs t2s
        cfg).equity_rows.getLastD defaultRow).market_value = 0 ∧
    ((runFull start_cash dates spy sector_dfs stock_dfs t2s
        cfg).equity_rows.getLastD defaultRow).equity =
      ((runFull start_cash dates spy sector_dfs stock_dfs t2s
        cfg).equity_rows.getLastD defaultRow).cash ∧
    ((runFull start_cash dates spy sector_dfs stock_dfs t2s
        cfg).equity_rows.getLastD defaultRow).positions = 0 := by
  have hidays : ((List.range dates.length).zip dates) ≠ [] := by
    have hlen : ((List.range dates.length).zip dates).length = dates.length := by
      simp
    intro hc
    rw [hc] at hlen
    exact h (List.eq_nil_of_length_eq_zero hlen.symm)
  obtain ⟨l, a, hla⟩ :=
    (List.eq_nil_or_concat ((List.range dates.length).zip dates)).resolve_left hidays
  rw [List.concat_eq_append] at hla
  have hstEnd : runDays (mkCtx spy sector_dfs stock_dfs t2s cfg) (initState start_cash)
      ((List.range dates.length).zip dates) =
      processDay (mkCtx spy sector_dfs stock_dfs t2s cfg)
        (runDays (mkCtx spy sector_dfs stock_dfs t2s cfg) (initState start_cash) l) a := by
    rw [hla, runDays_concat]
  have hrowsne : (runDays (mkCtx spy sector_dfs stock_dfs t2s cfg) (initState start_cash)
      ((List.range dates.length).zip dates)).equity_rows ≠ [] := by
    rw [hstEnd]
    exact processDay_rows_ne_nil _ _ _
  by_cases hp : (runDays (mkCtx spy sector_dfs stock_dfs t2s cfg) (initState start_cash)
      ((List.range dates.length).zip dates)).positions = []
  · have heod : runFull start_cash dates spy sector_dfs stock_dfs t2s cfg =
        runDays (mkCtx spy sector_dfs stock_dfs t2s cfg) (initState start_cash)
          ((List.range dates.length).zip dates) := by
      unfold runFull
      dsimp only
      rw [eodLiquidate, if_pos (by rw [List.isEmpty_iff]; exact hp)]
    have hfields := by
      rw [hstEnd] at hp
      exact processDay_last_row_fields _ _ _ hp
    rw [heod]
    refine ⟨hp, ?_, hrowsne, ?_, ?_, ?_⟩
    · intro p hpm
      rw [hp] at hpm
      cases hpm
    · rw [hstEnd]; exact hfields.1
    · rw [hstEnd]; exact hfields.2.2
    · rw [hstEnd]; exact hfields.2.1
  · have hisEmpty : (runDays (mkCtx spy sector_dfs stock_dfs t2s cfg) (initState start_cash)
        ((List.range dates.length).zip dates)).positions.isEmpty = false := by
      rw [List.isEmpty_eq_false_iff_exists_mem]
      rcases List.exists_cons_of_ne_nil hp with ⟨x, xs, hx⟩
      exact ⟨x, by rw [hx]; exact List.mem_cons_self x xs⟩
    have heod : runFull start_cash dates spy sector_dfs stock_dfs t2s cfg =
        eodLiquidate (mkCtx spy sector_dfs stock_dfs t2s cfg) dates
          (runDays (mkCtx spy sector_dfs stock_dfs t2s cfg) (initState start_cash)
            ((List.range dates.length).zip dates)) := rfl
    rw [heod]
    rw [eodLiquidate, if_neg (by rw [hisEmpty]; exact Bool.false_ne_true)]
    dsimp only
    rcases List.exists_cons_of_ne_nil hrowsne with ⟨r, rs, hr⟩
    refine ⟨rfl, ?_, ?_, ?_, ?_, ?_⟩
    · intro p hpm
      refine ⟨_, List.mem_append_right _ (List.mem_map_of_mem _ hpm), rfl, rfl, rfl, rfl, rfl⟩
    · rw [hr]
      intro hc
      rw [List.append_eq_nil] at hc
      cases hc.2
    · rw [hr, List.getLastD_concat]
    · rw [hr, List.getLastD_concat]
    · rw [hr, List.getLastD_concat]

/-- Witness for C6 on a one-day, zero-universe run. -/
theorem eod_liquidation_c6_witness :
    (runFull 1000 [0] [flatBar 100] [] [] [] cfgA).positions = [] ∧
    ((runFull 1000 [0] [flatBar 100] [] [] []
        cfgA).equity_rows.getLastD defaultRow).market_value = 0 := by
  have hc6 := eod_liquidation_c6 1000 [0] [flatBar 100] [] [] [] cfgA (by decide)
  exact ⟨hc6.1, hc6.2.2.2.1⟩

end PoosBacktest
